import Mathlib

/-!
Verification of the Kazeta Cart Setup Tool (kazeta_gui.py) against its
specification.  Strings are embedded as `List Char`; the build worker is
embedded as a function over an explicit `World` describing the outcome of
every external effect (commands, network, filesystem probes), producing the
ordered list of performed actions, the manifest text written (if any) and the
terminal outcome.
-/

namespace Kazeta

abbrev Chars := List Char

/-- A Lean string literal as a character list. -/
def str (s : String) : Chars := s.toList

/-- Python `str.lower` restricted to the ASCII case mapping
(`A`-`Z` map to `a`-`z`, everything else is fixed). -/
def pyLowerChar (c : Char) : Char :=
  if 65 ≤ c.toNat ∧ c.toNat ≤ 90 then Char.ofNat (c.toNat + 32) else c

/-- Python `str.upper` restricted to the ASCII case mapping. -/
def pyUpperChar (c : Char) : Char :=
  if 97 ≤ c.toNat ∧ c.toNat ≤ 122 then Char.ofNat (c.toNat - 32) else c

/-- `s.lower()` over a character list. -/
def lowerL (l : Chars) : Chars := l.map pyLowerChar

/-- ASCII whitespace, the characters `str.strip()` removes. -/
def pyIsSpace (c : Char) : Bool :=
  c.toNat = 32 || c.toNat = 9 || c.toNat = 10 || c.toNat = 13 ||
  c.toNat = 11 || c.toNat = 12

/-- A lowercase-slug character: `[a-z0-9]`. -/
def isLowerAl (c : Char) : Bool :=
  (97 ≤ c.toNat && c.toNat ≤ 122) || (48 ≤ c.toNat && c.toNat ≤ 57)

/-- A label character kept by `labelify`: `[A-Za-z0-9]`. -/
def keepAl (c : Char) : Bool :=
  (65 ≤ c.toNat && c.toNat ≤ 90) || (97 ≤ c.toNat && c.toNat ≤ 122) ||
  (48 ≤ c.toNat && c.toNat ≤ 57)

/-- Drop leading characters satisfying `p` (one side of `str.strip`). -/
def lstripBy (p : Char → Bool) (l : Chars) : Chars := l.dropWhile p

/-- Drop trailing characters satisfying `p` (the other side of `str.strip`). -/
def rstripBy (p : Char → Bool) : Chars → Chars
  | [] => []
  | c :: cs =>
    let r := rstripBy p cs
    if r.isEmpty && p c then [] else c :: r

/-- Python `s.strip(set)`: remove the characters from both ends. -/
def pyStrip (p : Char → Bool) (l : Chars) : Chars := rstripBy p (lstripBy p l)

/-- State machine for `re.sub(r"[^a-z0-9]+", "-", s)`: every maximal run of
characters outside `[a-z0-9]` becomes a single `-`.  The flag says whether we
are inside such a run (its `-` already emitted). -/
def subNA : Bool → Chars → Chars
  | _, [] => []
  | inRun, c :: cs =>
    if isLowerAl c then c :: subNA false cs
    else if inRun then subNA true cs
    else '-' :: subNA true cs

/-- State machine for `re.sub(r"-+", "-", s)`: collapse runs of `-`. -/
def cdash : Bool → Chars → Chars
  | _, [] => []
  | inD, c :: cs =>
    if c = '-' then (if inD then cdash true cs else '-' :: cdash true cs)
    else c :: cdash false cs

/-- `slugify` from kazeta_gui.py: lowercase/strip, squash non-alphanumerics to
hyphens, collapse and trim hyphens, with fallback `"game"`. -/
def slugify (s : Chars) : Chars :=
  let t := (pyStrip pyIsSpace s).map pyLowerChar
  let t := subNA false t
  let t := cdash false t
  let t := pyStrip (fun c => c = '-') t
  if t.isEmpty then str "game" else t

/-- `labelify` from kazeta_gui.py: uppercase, keep `[A-Za-z0-9]`
(`re.sub(r"[^A-Za-z0-9]+", "", s.upper())`), truncate to 11 characters, with
fallback `"GAME"`. -/
def labelify (s : Chars) : Chars :=
  let base := (s.map pyUpperChar).filter keepAl
  let t := base.take 11
  if t.isEmpty then str "GAME" else t

end Kazeta

namespace Kazeta

/-! ## Runtime download and digest verification (`download_runtime`) -/

/-- Outcome of `download_runtime`: success, a network/write failure, or the
`RuntimeError` raised on a SHA-256 mismatch (carrying both digests). -/
inductive DlResult
  | ok
  | fetchFailed
  | mismatch (expected actual : Chars)
deriving DecidableEq

/-- Filesystem state around a runtime download: the destination file's bytes,
if the file has been written. -/
structure RtFS where
  runtimeFile : Option (List Nat)
deriving DecidableEq

/-- `download_runtime(dest, url, expected_sha, verify, log)` from
kazeta_gui.py.  `hashHex` is the digest oracle embedding
`hashlib.sha256(...).hexdigest()` over the file's bytes (`sha256_file`);
`fetched` is `some data` when `http_bytes(url)` returns `data` and `none`
when the fetch raises.  The downloaded bytes are written to disk before any
verification, and a mismatch raises without deleting the file. -/
def download_runtime (hashHex : List Nat → Chars) (fetched : Option (List Nat))
    (expected_sha : Chars) (verify : Bool) (fs : RtFS) : RtFS × DlResult :=
  match fetched with
  | none => (fs, .fetchFailed)
  | some data =>
    let fs' : RtFS := ⟨some data⟩
    if verify && !expected_sha.isEmpty then
      let actual := hashHex data
      if lowerL actual = lowerL expected_sha then (fs', .ok)
      else (fs', .mismatch expected_sha actual)
    else (fs', .ok)

/-! ## The manifest (`cart.kzi`) -/

/-- The two runtime kinds (`self.runtime_var` is `"windows"` or `"linux"`). -/
inductive Runtime
  | windows
  | linux
deriving DecidableEq

/-- The runtime kind as the string written to the manifest. -/
def runtimeStr : Runtime → Chars
  | .windows => str "windows"
  | .linux => str "linux"

/-- The manifest text written at the mount root
(`f"Name={name}\nId={slug}\nExec={exec_line}\nIcon=kazeta/icon.png\nRuntime={runtime}\n"`). -/
def manifestText (name slug exec_line rtS : Chars) : Chars :=
  str "Name=" ++ name ++ str "\nId=" ++ slug ++ str "\nExec=" ++ exec_line ++
  str "\nIcon=kazeta/icon.png\nRuntime=" ++ rtS ++ str "\n"

/-- The `Exec` value formed by the worker: `content/<exe>` for the windows
runtime, `cd content && ./<exe>` for the linux runtime. -/
def execLine (rt : Runtime) (exe : Chars) : Chars :=
  match rt with
  | .windows => str "content/" ++ exe
  | .linux => str "cd content && ./" ++ exe

/-- Modelled from the spec: split a plain text file into its newline-terminated
lines (`Key=Value` per line); a trailing fragment without a newline is also a
line.  This is the reader side of the manifest format, which the repository
itself never parses. -/
def splitLines : Chars → List Chars
  | [] => []
  | c :: cs =>
    if c = '\n' then [] :: splitLines cs
    else
      match splitLines cs with
      | [] => [[c]]
      | l :: ls => (c :: l) :: ls

/-- Modelled from the spec: read one `Key=Value` line, splitting at the first
`=`. -/
def parseKV (l : Chars) : Chars × Chars :=
  (l.takeWhile (fun c => c ≠ '='), (l.dropWhile (fun c => c ≠ '=')).drop 1)

/-- Modelled from the spec: parse a manifest file into its ordered list of
`(key, value)` pairs. -/
def parseManifest (m : Chars) : List (Chars × Chars) :=
  (splitLines m).map parseKV

/-! ## Executable resolution (`find_exe_under`) -/

/-- A file of the content tree: its relative path as nonempty components
(the last one is the filename) and whether the executable bit is set. -/
structure FileEnt where
  path : List Chars
  execBit : Bool
deriving DecidableEq

/-- `os.path.basename` of a component path. -/
def basename (p : List Chars) : Chars := p.getLastD []

/-- `p.count(os.sep)`: the number of separators in the relative path. -/
def depth (p : List Chars) : Nat := p.length - 1

/-- `fn.lower().endswith(".exe")`. -/
def isExeName (fn : Chars) : Bool := List.isSuffixOf (str ".exe") (lowerL fn)

/-- `"." not in fn`: the filename has no extension (no dot anywhere). -/
def noExt (fn : Chars) : Bool := !(fn.contains '.')

/-- The sort key comparison `(p.count(os.sep), len(os.path.basename(p)))`,
strictly: used so that insertion keeps equal keys in input order, as Python's
stable `list.sort` does. -/
def keyLt (a b : List Chars) : Bool :=
  decide (depth a < depth b) ||
  (decide (depth a = depth b) && decide ((basename a).length < (basename b).length))

/-- Insert a candidate after every earlier candidate whose key is not
strictly greater. -/
def insertCand (x : List Chars) : List (List Chars) → List (List Chars)
  | [] => [x]
  | y :: ys => if keyLt x y then x :: y :: ys else y :: insertCand x ys

/-- `candidates.sort(key=...)`: a stable sort by `(depth, basename length)`. -/
def pySortCands (l : List (List Chars)) : List (List Chars) :=
  l.foldl (fun acc x => insertCand x acc) []

/-- `find_exe_under(path, runtime)` from kazeta_gui.py, over the list of files
under the content tree (in walk order).  Windows: every file whose name ends in
`.exe` (case-insensitively).  Linux: extension-less files with the executable
bit anywhere, else extension-less top-level files regardless of permission.
The result is sorted by ascending depth then ascending basename length. -/
def find_exe_under (files : List FileEnt) (rt : Runtime) : List (List Chars) :=
  let cands :=
    match rt with
    | .windows => (files.filter (fun f => isExeName (basename f.path))).map (·.path)
    | .linux =>
      let c1 := (files.filter (fun f => noExt (basename f.path) && f.execBit)).map (·.path)
      if c1.isEmpty then
        (files.filter (fun f => decide (f.path.length = 1) && noExt (basename f.path))).map (·.path)
      else c1
  pySortCands cands

/-! ## Content staging progress (`copy_tree`) -/

/-- The sequence of percentages `copy_tree` reports: one per copied file, in
order, each `min(100, int(copied * 100 / max(1, total)))` with `copied`
running `1..total` and `total` the pre-scanned file count. -/
def copy_tree_progress (total : Nat) : List Nat :=
  (List.range total).map (fun c => min 100 ((c + 1) * 100 / max 1 total))

/-! ## The build worker (`App.worker`)

The worker is embedded as a function of the build request (`Input`) and of a
`World` fixing the outcome of every external effect (each privileged command,
the network fetch, the filesystem probes).  It returns the ordered list of
performed actions, the manifest text written (if the build got that far) and
the terminal outcome.  Pure in-process operations that the worker performs on
the mounted filesystem (`os.makedirs`, `os.path.join`, writing `cart.kzi`,
`os.sync`) are modelled as succeeding; `fetch_artwork` always produces an icon
(it falls back to an embedded placeholder) and is modelled as one action. -/

/-- One externally visible action of the worker, in execution order. -/
inductive Event
  | checkUdisks
  | stopUdisks
  | unmountMounts
  | wipefs
  | parted
  | partprobe
  | udevadmSettle
  | mkfs
  | mkdirMount
  | mountPart
  | chownMount
  | mkdirsLayout
  | downloadRt
  | verifySha
  | fetchArt
  | copyFiles
  | chmodExe
  | warnNoExe
  | writeKzi
  | syncFs
  | ejectUnmount
  | startUdisks
deriving DecidableEq

/-- Terminal state of one build. -/
inductive Outcome
  | done
  | failed
deriving DecidableEq

/-- The build request, as collected by `on_build` and passed to `worker`. -/
structure Input where
  appid : Chars
  name : Chars
  slug : Chars
  exe : Chars
  label : Chars
  src : Chars
  mount_base : Chars
  runtime : Runtime
  runtime_url : Chars
  runtime_sha : Chars
  verify_runtime : Bool
  no_format : Bool
  eject : Bool
deriving DecidableEq

/-- Outcomes of the external effects one build performs: whether each command
succeeds, whether the automount daemon was active, what the network returned,
and what the content tree holds when the worker searches it. -/
structure World where
  udisksCheckOk : Bool
  udisksActive : Bool
  unmountOk : Bool
  wipeOk : Bool
  partedOk : Bool
  settleOk : Bool
  mkfsOk : Bool
  mkdirOk : Bool
  unmount2Ok : Bool
  mountOk : Bool
  chownOk : Bool
  fetched : Option (List Nat)
  copyOk : Bool
  exeExists : Bool
  contentTree : List FileEnt
  ejectOk : Bool
  startOk : Bool
deriving DecidableEq

/-- Result of one build: actions in order, the manifest written (if any),
terminal outcome. -/
structure BResult where
  events : List Event
  manifest : Option Chars
  outcome : Outcome
deriving DecidableEq

/-- The udisks2 detection at the top of `worker`: only performed when
formatting; the stop command's own failure is swallowed, so the remembered
flag is exactly "the check ran and reported active". -/
def prepEvents (inp : Input) (w : World) : List Event :=
  if inp.no_format then []
  else .checkUdisks :: (if w.udisksCheckOk && w.udisksActive then [.stopUdisks] else [])

/-- `udisks_was_active` as remembered by the worker. -/
def udisksWasActive (inp : Input) (w : World) : Bool :=
  !inp.no_format && w.udisksCheckOk && w.udisksActive

/-- `partition_and_format(devpath, label, log)`: wipefs, parted, partprobe
(best-effort), udevadm settle, mkfs.ext4; the events performed and whether the
sequence completed. -/
def partition_and_format (w : World) : List Event × Bool :=
  if !w.wipeOk then ([.wipefs], false)
  else if !w.partedOk then ([.wipefs, .parted], false)
  else if !w.settleOk then ([.wipefs, .parted, .partprobe, .udevadmSettle], false)
  else if !w.mkfsOk then ([.wipefs, .parted, .partprobe, .udevadmSettle, .mkfs], false)
  else ([.wipefs, .parted, .partprobe, .udevadmSettle, .mkfs], true)

/-- `mount_partition(devpath, label, mount_base, log)`: mkdir -p, a defensive
re-unmount, mount, chown -R; the events performed and whether the sequence
completed. -/
def mount_partition (w : World) : List Event × Bool :=
  if !w.mkdirOk then ([.mkdirMount], false)
  else if !w.unmount2Ok then ([.mkdirMount, .unmountMounts], false)
  else if !w.mountOk then ([.mkdirMount, .unmountMounts, .mountPart], false)
  else if !w.chownOk then ([.mkdirMount, .unmountMounts, .mountPart, .chownMount], false)
  else ([.mkdirMount, .unmountMounts, .mountPart, .chownMount], true)

/-- `os.path.relpath` joined with `/` (after the worker's `replace("\\", "/")`,
which on Linux paths is the identity). -/
def joinSlash : List Chars → Chars
  | [] => []
  | [c] => c
  | c :: rest => c ++ '/' :: joinSlash rest

/-- Executable resolution inside the worker (lines 566-601): the actions it
performs and the final relative executable path.  Windows: keep the configured
path if it exists, else take the first `find_exe_under` candidate, else warn
and keep the configured path.  Linux: the same search, plus best-effort (and,
with the missing `import stat`, always caught) `chmod +x` attempts. -/
def resolveExe (inp : Input) (w : World) : List Event × Chars :=
  match inp.runtime with
  | .windows =>
    if w.exeExists then ([], inp.exe)
    else
      match find_exe_under w.contentTree .windows with
      | [] => ([.warnNoExe], inp.exe)
      | c :: _ => ([], joinSlash c)
  | .linux =>
    if w.exeExists then ([.chmodExe], inp.exe)
    else
      match find_exe_under w.contentTree .linux with
      | [] => ([.warnNoExe], inp.exe)
      | c :: _ => ([.chmodExe], joinSlash c)

/-- The `try` body of `App.worker` after the udisks2 detection and the first
unmount: every remaining step up to `setp(100)`, with each failing step
aborting the rest.  Returns the actions performed, the manifest written (if
reached) and the outcome. -/
def workerTail (hashHex : List Nat → Chars) (inp : Input) (w : World) :
    List Event × Option Chars × Outcome :=
  if !w.unmountOk then ([], none, .failed) else
  let fmt := if inp.no_format then (([] : List Event), true) else partition_and_format w
  let ev := fmt.1
  if !fmt.2 then (ev, none, .failed) else
  let mnt := mount_partition w
  let ev := ev ++ mnt.1
  if !mnt.2 then (ev, none, .failed) else
  let ev := ev ++ [.mkdirsLayout, .downloadRt]
  match w.fetched with
  | none => (ev, none, .failed)
  | some data =>
    let ev := ev ++ (if inp.verify_runtime && !inp.runtime_sha.isEmpty then [.verifySha] else [])
    if inp.verify_runtime && !inp.runtime_sha.isEmpty &&
        !(decide (lowerL (hashHex data) = lowerL inp.runtime_sha)) then (ev, none, .failed) else
    let ev := ev ++ [.fetchArt]
    let ev := ev ++ (if !inp.src.isEmpty then [.copyFiles] else [])
    if !inp.src.isEmpty && !w.copyOk then (ev, none, .failed) else
    let res := resolveExe inp w
    let ev := ev ++ res.1
    let text := manifestText inp.name inp.slug (execLine inp.runtime res.2) (runtimeStr inp.runtime)
    let ev := ev ++ [.writeKzi, .syncFs]
    if inp.eject then
      let ev := ev ++ [.ejectUnmount]
      if !w.ejectOk then (ev, some text, .failed) else (ev, some text, .done)
    else (ev, some text, .done)

/-- The full `try` body of `App.worker`: the udisks2 detection events and the
first unmount (which every build performs before anything else), followed by
the rest of the pipeline. -/
def workerBody (hashHex : List Nat → Chars) (inp : Input) (w : World) : BResult :=
  let t := workerTail hashHex inp w
  ⟨prepEvents inp w ++ .unmountMounts :: t.1, t.2.1, t.2.2⟩

/-- `App.worker`: the `try` body followed by the `finally` block, which
restarts udisks2 exactly when the worker remembered it active (a failed
restart is swallowed and changes nothing). -/
def worker (hashHex : List Nat → Chars) (inp : Input) (w : World) : BResult :=
  let r := workerBody hashHex inp w
  if udisksWasActive inp w then { r with events := r.events ++ [.startUdisks] } else r

/-! ## Predicates used by the statements and proofs -/

/-- A character a finished slug may hold: `[a-z0-9-]`. -/
def slugChar (c : Char) : Bool := isLowerAl c || c == '-'

/-- No two adjacent hyphens. -/
def NoDD (l : Chars) : Prop := l.Chain' (fun a b => ¬(a = '-' ∧ b = '-'))

/-- The shape `slugify` guarantees of its output: slug characters only, no
double hyphen, no leading and no trailing hyphen. -/
def GoodSlug (l : Chars) : Prop :=
  (∀ c ∈ l, slugChar c = true) ∧ NoDD l ∧
  (∀ c, l.head? = some c → c ≠ '-') ∧ (∀ c, l.getLast? = some c → c ≠ '-')

/-- The claim's candidate order: ascending path depth, then ascending
basename length. -/
def keyLe (a b : List Chars) : Prop :=
  depth a < depth b ∨ (depth a = depth b ∧ (basename a).length ≤ (basename b).length)

/-- Every action the `try` body of the worker can perform besides the
udisks2 detection/stop pair (which `prepEvents` alone contributes). -/
def bodyEventPool : List Event :=
  [.unmountMounts, .wipefs, .parted, .partprobe, .udevadmSettle, .mkfs,
   .mkdirMount, .mountPart, .chownMount, .mkdirsLayout, .downloadRt, .verifySha,
   .fetchArt, .copyFiles, .chmodExe, .warnNoExe, .writeKzi, .syncFs, .ejectUnmount]

/-! ## Concrete builds used to instantiate the theorems -/

/-- A digest oracle used for concrete instances. -/
def hash0 : List Nat → Chars := fun _ => str "ab"

/-- A skip-format windows build with no source directory and verification
disabled. -/
def inpA : Input :=
  ⟨str "1", str "My Game", str "my-game", str "Game.exe", str "MYGAME", [],
   str "/mnt", .windows, str "http://u", str "ab", false, true, false⟩

/-- A world where every command succeeds, the daemon is active, the download
returns one byte and the content tree is empty. -/
def wA : World :=
  ⟨true, true, true, true, true, true, true, true, true, true, true,
   some [0], true, false, [], true, true⟩

/-- A formatting build with verification on. -/
def inpB : Input := { inpA with no_format := false, verify_runtime := true }

/-- A world where the runtime fetch itself fails. -/
def wB : World := { wA with fetched := none }

end Kazeta

namespace Kazeta

/-! ## C6: content-staging progress -/

theorem copy_progress_eq (total : Nat) (h : 1 ≤ total) :
    copy_tree_progress total = (List.range total).map (fun c => (c + 1) * 100 / total) := by
  unfold copy_tree_progress
  apply List.map_congr_left
  intro c hc
  have hct : c < total := List.mem_range.mp hc
  rw [Nat.max_eq_right h]
  exact Nat.min_eq_right (Nat.div_le_of_le_mul (Nat.mul_le_mul_right 100 hct))

/-- C6 (amended): for a source tree with at least one file, every reported
percentage is `copied * 100 / total` with `total` pre-scanned; the sequence is
non-decreasing, bounded by 100, and its final value is exactly 100. -/
theorem c6_progress_monotone (total : Nat) (h : 1 ≤ total) :
    copy_tree_progress total = (List.range total).map (fun c => (c + 1) * 100 / total) ∧
    List.Pairwise (· ≤ ·) (copy_tree_progress total) ∧
    (∀ x ∈ copy_tree_progress total, x ≤ 100) ∧
    (copy_tree_progress total).getLast? = some 100 := by
  have he := copy_progress_eq total h
  refine ⟨he, ?_, ?_, ?_⟩
  · rw [he, List.pairwise_map]
    refine (List.pairwise_lt_range total).imp ?_
    intro a b hlt
    exact Nat.div_le_div_right (Nat.mul_le_mul_right 100 (by omega))
  · rw [he]
    intro x hx
    obtain ⟨c, hc, rfl⟩ := List.mem_map.mp hx
    exact Nat.div_le_of_le_mul (Nat.mul_le_mul_right 100 (List.mem_range.mp hc))
  · rw [he]
    obtain ⟨k, rfl⟩ : ∃ k, total = k + 1 := ⟨total - 1, by omega⟩
    rw [List.range_succ, List.map_append, List.map_cons, List.map_nil,
      List.getLast?_concat, Nat.mul_comm, Nat.mul_div_cancel 100 (Nat.succ_pos k)]

/-- C6 counterexample: staging a tree with zero files reports no progress at
all, so the sequence of reported values has no final value 100. -/
theorem c6_zero_files_cex :
    copy_tree_progress 0 = [] ∧ (copy_tree_progress 0).getLast? ≠ some 100 := by
  decide

/-- C6 instance at a 3-file tree. -/
theorem c6_progress_monotone_inst :
    copy_tree_progress 3 = (List.range 3).map (fun c => (c + 1) * 100 / 3) ∧
    List.Pairwise (· ≤ ·) (copy_tree_progress 3) ∧
    (∀ x ∈ copy_tree_progress 3, x ≤ 100) ∧
    (copy_tree_progress 3).getLast? = some 100 :=
  c6_progress_monotone 3 (by decide)

/-! ## C1: manifest format and round trip -/

theorem nl_not_mem_append {a b : Chars} (ha : '\n' ∉ a) (hb : '\n' ∉ b) :
    '\n' ∉ a ++ b := by
  intro h
  rcases List.mem_append.mp h with h | h
  · exact ha h
  · exact hb h

theorem takeWhile_app (p : Char → Bool) (k rest : Chars) (h : ∀ c ∈ k, p c = true) :
    (k ++ rest).takeWhile p = k ++ rest.takeWhile p := by
  induction k with
  | nil => rfl
  | cons a l ih =>
    have ha : p a = true := h a (List.mem_cons_self a l)
    have ih' := ih (fun c hc => h c (List.mem_cons_of_mem a hc))
    simp [List.takeWhile_cons, ha, ih']

theorem dropWhile_app (p : Char → Bool) (k rest : Chars) (h : ∀ c ∈ k, p c = true) :
    (k ++ rest).dropWhile p = rest.dropWhile p := by
  induction k with
  | nil => rfl
  | cons a l ih =>
    have ha : p a = true := h a (List.mem_cons_self a l)
    have ih' := ih (fun c hc => h c (List.mem_cons_of_mem a hc))
    simp [List.dropWhile_cons, ha, ih']

theorem parseKV_app (k v : Chars) (h : ∀ c ∈ k, c ≠ '=') :
    parseKV (k ++ '=' :: v) = (k, v) := by
  have h' : ∀ c ∈ k, (decide ¬(c = '=')) = true := by
    intro c hc
    simpa using h c hc
  unfold parseKV
  rw [takeWhile_app _ _ _ h', dropWhile_app _ _ _ h']
  simp [List.takeWhile_cons, List.dropWhile_cons]

theorem splitLines_append (a r : Chars) : '\n' ∉ a →
    splitLines (a ++ '\n' :: r) = a :: splitLines r := by
  induction a with
  | nil => intro _; simp [splitLines]
  | cons c cs ih =>
    intro h
    have hc : ¬(c = '\n') := fun hcc => h (hcc ▸ List.mem_cons_self c cs)
    have ih' := ih (fun hm => h (List.mem_cons_of_mem c hm))
    rw [List.cons_append]
    simp only [splitLines, if_neg hc, ih']

theorem splitLines_append2 (k v r : Chars) (hk : '\n' ∉ k) (hv : '\n' ∉ v) :
    splitLines (k ++ (v ++ '\n' :: r)) = (k ++ v) :: splitLines r := by
  rw [← List.append_assoc]
  exact splitLines_append (k ++ v) r (nl_not_mem_append hk hv)

theorem parse_manifestText (name slug e rtS : Chars)
    (h1 : '\n' ∉ name) (h2 : '\n' ∉ slug) (h3 : '\n' ∉ e) (h4 : '\n' ∉ rtS) :
    parseManifest (manifestText name slug e rtS) =
      [(str "Name", name), (str "Id", slug), (str "Exec", e),
       (str "Icon", str "kazeta/icon.png"), (str "Runtime", rtS)] := by
  have hA : str "\nId=" = '\n' :: str "Id=" := by decide
  have hB : str "\nExec=" = '\n' :: str "Exec=" := by decide
  have hC : str "\nIcon=kazeta/icon.png\nRuntime=" =
      '\n' :: (str "Icon=kazeta/icon.png" ++ '\n' :: str "Runtime=") := by decide
  have hD : str "\n" = ['\n'] := by decide
  have e1 : manifestText name slug e rtS =
      str "Name=" ++ (name ++ '\n' :: (str "Id=" ++ (slug ++ '\n' ::
        (str "Exec=" ++ (e ++ '\n' :: (str "Icon=kazeta/icon.png" ++ '\n' ::
          (str "Runtime=" ++ (rtS ++ '\n' :: ([] : Chars))))))))) := by
    simp [manifestText, hA, hB, hC, hD, List.append_assoc]
  have p1 : parseKV (str "Name=" ++ name) = (str "Name", name) :=
    parseKV_app (str "Name") name (by decide)
  have p2 : parseKV (str "Id=" ++ slug) = (str "Id", slug) :=
    parseKV_app (str "Id") slug (by decide)
  have p3 : parseKV (str "Exec=" ++ e) = (str "Exec", e) :=
    parseKV_app (str "Exec") e (by decide)
  have p4 : parseKV (str "Icon=kazeta/icon.png") = (str "Icon", str "kazeta/icon.png") := by
    decide
  have p5 : parseKV (str "Runtime=" ++ rtS) = (str "Runtime", rtS) :=
    parseKV_app (str "Runtime") rtS (by decide)
  unfold parseManifest
  rw [e1, splitLines_append2 _ _ _ (by decide) h1,
    splitLines_append2 _ _ _ (by decide) h2,
    splitLines_append2 _ _ _ (by decide) h3,
    splitLines_append _ _ (by decide),
    splitLines_append2 _ _ _ (by decide) h4]
  simp [splitLines, p1, p2, p3, p4, p5]

/-! ## C5: executable resolution order -/

theorem keyLe_of_not_lt {a b : List Chars} (h : keyLt a b = false) : keyLe b a := by
  simp [keyLt] at h
  unfold keyLe
  omega

theorem keyLe_of_lt {a b : List Chars} (h : keyLt a b = true) : keyLe a b := by
  simp [keyLt] at h
  unfold keyLe
  omega

theorem keyLt_le_trans {a b c : List Chars} (h : keyLt a b = true) (h2 : keyLe b c) :
    keyLe a c := by
  simp [keyLt] at h
  unfold keyLe at h2 ⊢
  omega

theorem insertCand_mem (x : List Chars) (l : List (List Chars)) (a : List Chars) :
    a ∈ insertCand x l ↔ a = x ∨ a ∈ l := by
  induction l with
  | nil => simp [insertCand]
  | cons y ys ih =>
    unfold insertCand
    by_cases h : keyLt x y = true
    · simp [h]
    · simp [h, ih]
      tauto

theorem insertCand_pairwise (x : List Chars) (l : List (List Chars))
    (hl : List.Pairwise keyLe l) : List.Pairwise keyLe (insertCand x l) := by
  induction l with
  | nil => simp [insertCand]
  | cons y ys ih =>
    rcases List.pairwise_cons.mp hl with ⟨hy, hys⟩
    unfold insertCand
    by_cases h : keyLt x y = true
    · rw [if_pos h]
      refine List.pairwise_cons.mpr ⟨?_, hl⟩
      intro z hz
      rcases List.mem_cons.mp hz with rfl | hz
      · exact keyLe_of_lt h
      · exact keyLt_le_trans h (hy z hz)
    · rw [if_neg h]
      refine List.pairwise_cons.mpr ⟨?_, ih hys⟩
      intro z hz
      rcases (insertCand_mem x ys z).mp hz with rfl | hz
      · exact keyLe_of_not_lt (by simpa using h)
      · exact hy z hz

theorem pySort_mem_aux (l acc : List (List Chars)) (a : List Chars) :
    a ∈ l.foldl (fun acc x => insertCand x acc) acc ↔ a ∈ acc ∨ a ∈ l := by
  induction l generalizing acc with
  | nil => simp
  | cons y ys ih =>
    rw [List.foldl_cons, ih]
    simp [insertCand_mem]
    tauto

theorem pySortCands_mem (l : List (List Chars)) (a : List Chars) :
    a ∈ pySortCands l ↔ a ∈ l := by
  unfold pySortCands
  rw [pySort_mem_aux]
  simp

theorem pySort_pairwise_aux (l acc : List (List Chars)) (h : List.Pairwise keyLe acc) :
    List.Pairwise keyLe (l.foldl (fun acc x => insertCand x acc) acc) := by
  induction l generalizing acc with
  | nil => simpa
  | cons y ys ih => exact ih _ (insertCand_pairwise y acc h)

theorem pySortCands_pairwise (l : List (List Chars)) :
    List.Pairwise keyLe (pySortCands l) :=
  pySort_pairwise_aux l [] (by simp)

/-- C5: for windows the candidates are exactly the files whose names end in
`.exe`; for linux the extension-less executable files anywhere, with the
top-level extension-less fallback when none qualify; candidates come out
ordered by ascending depth then ascending basename length, and on the claim's
tie-break examples `run` beats `runner` and a top-level `run` beats
`sub/run`. -/
theorem c5_find_exe_resolution (files : List FileEnt) (rt : Runtime) :
    (∀ p, p ∈ find_exe_under files .windows ↔
      ∃ f ∈ files, f.path = p ∧ isExeName (basename p) = true) ∧
    (∀ p, p ∈ find_exe_under files .linux ↔
      ((∃ f ∈ files, f.path = p ∧ noExt (basename p) = true ∧ f.execBit = true) ∨
       ((¬ ∃ f ∈ files, noExt (basename f.path) = true ∧ f.execBit = true) ∧
        (∃ f ∈ files, f.path = p ∧ p.length = 1 ∧ noExt (basename p) = true)))) ∧
    List.Pairwise keyLe (find_exe_under files rt) ∧
    find_exe_under [⟨[str "runner"], true⟩, ⟨[str "run"], true⟩] .linux =
      [[str "run"], [str "runner"]] ∧
    find_exe_under [⟨[str "sub", str "run"], true⟩, ⟨[str "run"], true⟩] .linux =
      [[str "run"], [str "sub", str "run"]] := by
  refine ⟨?_, ?_, ?_, by decide, by decide⟩
  · intro p
    simp only [find_exe_under]
    rw [pySortCands_mem]
    simp only [List.mem_map, List.mem_filter]
    constructor
    · rintro ⟨f, ⟨hf, hex⟩, rfl⟩
      exact ⟨f, hf, rfl, hex⟩
    · rintro ⟨f, hf, rfl, hex⟩
      exact ⟨f, ⟨hf, hex⟩, rfl⟩
  · intro p
    simp only [find_exe_under]
    by_cases hc : (files.filter (fun f => noExt (basename f.path) && f.execBit)) = []
    · rw [hc]
      simp only [List.map_nil, List.isEmpty_nil, if_true]
      rw [pySortCands_mem]
      have hno : ¬ ∃ f ∈ files, noExt (basename f.path) = true ∧ f.execBit = true := by
        rintro ⟨f, hf, hn, he⟩
        have := List.filter_eq_nil_iff.mp hc f hf
        simp [hn, he] at this
      simp only [List.mem_map, List.mem_filter]
      constructor
      · rintro ⟨f, ⟨hf, hcond⟩, rfl⟩
        simp only [Bool.and_eq_true, decide_eq_true_eq] at hcond
        exact Or.inr ⟨hno, f, hf, rfl, hcond.1, hcond.2⟩
      · rintro (⟨f, hf, rfl, hn, he⟩ | ⟨_, f, hf, rfl, hlen, hn⟩)
        · exact absurd ⟨f, hf, hn, he⟩ hno
        · exact ⟨f, ⟨hf, by simp [hlen, hn]⟩, rfl⟩
    · have hne : ((files.filter (fun f => noExt (basename f.path) && f.execBit)).map
          (·.path)).isEmpty = false := by
        simp [List.isEmpty_eq_false, hc]
      rw [hne]
      simp only [Bool.false_eq_true, if_false]
      rw [pySortCands_mem]
      have hyes : ∃ f ∈ files, noExt (basename f.path) = true ∧ f.execBit = true := by
        rcases List.exists_mem_of_ne_nil _ hc with ⟨f, hf⟩
        rcases List.mem_filter.mp hf with ⟨hf1, hf2⟩
        simp only [Bool.and_eq_true] at hf2
        exact ⟨f, hf1, hf2.1, hf2.2⟩
      simp only [List.mem_map, List.mem_filter]
      constructor
      · rintro ⟨f, ⟨hf, hcond⟩, rfl⟩
        simp only [Bool.and_eq_true] at hcond
        exact Or.inl ⟨f, hf, rfl, hcond.1, hcond.2⟩
      · rintro (⟨f, hf, rfl, hn, he⟩ | ⟨hno, _⟩)
        · exact ⟨f, ⟨hf, by simp [hn, he]⟩, rfl⟩
        · exact absurd hyes hno
  · cases rt <;> (simp only [find_exe_under]; exact pySortCands_pairwise _)

/-! ## C10: slug and label idempotence -/

theorem slugChar_toNat {c : Char} (h : slugChar c = true) :
    (97 ≤ c.toNat ∧ c.toNat ≤ 122) ∨ (48 ≤ c.toNat ∧ c.toNat ≤ 57) ∨ c.toNat = 45 := by
  simp only [slugChar, isLowerAl, Bool.or_eq_true, Bool.and_eq_true,
    decide_eq_true_eq, beq_iff_eq] at h
  rcases h with (h | h) | h
  · exact Or.inl h
  · exact Or.inr (Or.inl h)
  · subst h
    exact Or.inr (Or.inr rfl)

theorem pyLowerChar_fix {c : Char} (h : slugChar c = true) : pyLowerChar c = c := by
  have hh := slugChar_toNat h
  unfold pyLowerChar
  rw [if_neg (by omega)]

theorem slugChar_not_space {c : Char} (h : slugChar c = true) : pyIsSpace c = false := by
  have hh := slugChar_toNat h
  simp only [pyIsSpace, Bool.or_eq_false_iff, decide_eq_false_iff_not]
  omega

theorem subNA_allchar (l : Chars) : ∀ (b : Bool), ∀ c ∈ subNA b l, slugChar c = true := by
  induction l with
  | nil =>
    intro b c hc
    simp [subNA] at hc
  | cons a as ih =>
    intro b c hc
    by_cases ha : isLowerAl a = true
    · simp only [subNA, if_pos ha] at hc
      rcases List.mem_cons.mp hc with rfl | hc
      · simp [slugChar, ha]
      · exact ih false c hc
    · simp only [subNA, if_neg ha] at hc
      cases b with
      | true =>
        rw [if_pos rfl] at hc
        exact ih true c hc
      | false =>
        rw [if_neg Bool.false_ne_true] at hc
        rcases List.mem_cons.mp hc with rfl | hc
        · decide
        · exact ih true c hc

theorem cdash_mem (l : Chars) : ∀ (b : Bool), ∀ c ∈ cdash b l, c ∈ l := by
  induction l with
  | nil =>
    intro b c hc
    simp [cdash] at hc
  | cons a as ih =>
    intro b c hc
    by_cases ha : a = '-'
    · subst ha
      cases b with
      | true =>
        rw [show cdash true ('-' :: as) = cdash true as from by simp [cdash]] at hc
        exact List.mem_cons_of_mem _ (ih true c hc)
      | false =>
        rw [show cdash false ('-' :: as) = '-' :: cdash true as from by simp [cdash]] at hc
        rcases List.mem_cons.mp hc with rfl | hc
        · exact List.mem_cons_self _ _
        · exact List.mem_cons_of_mem _ (ih true c hc)
    · simp only [cdash, if_neg ha] at hc
      rcases List.mem_cons.mp hc with rfl | hc
      · exact List.mem_cons_self _ _
      · exact List.mem_cons_of_mem _ (ih false c hc)

theorem cdash_good (l : Chars) :
    NoDD (cdash false l) ∧ NoDD (cdash true l) ∧
    ∀ c cs, cdash true l = c :: cs → c ≠ '-' := by
  induction l with
  | nil =>
    refine ⟨by simp [cdash, NoDD], by simp [cdash, NoDD], ?_⟩
    intro c cs hc
    simp [cdash] at hc
  | cons a as ih =>
    obtain ⟨ihf, iht, ihh⟩ := ih
    by_cases ha : a = '-'
    · subst ha
      have hf : cdash false ('-' :: as) = '-' :: cdash true as := by simp [cdash]
      have ht : cdash true ('-' :: as) = cdash true as := by simp [cdash]
      have hdash : NoDD ('-' :: cdash true as) := by
        rw [NoDD, List.chain'_cons']
        refine ⟨?_, iht⟩
        intro b hb
        cases hcd : cdash true as with
        | nil => rw [hcd] at hb; cases hb
        | cons c cs =>
          rw [hcd] at hb
          have hbc : c = b := by simpa using hb
          intro hcon
          exact (ihh c cs hcd) (hbc.trans hcon.2)
      refine ⟨?_, ?_, ?_⟩
      · rw [hf]
        exact hdash
      · rw [ht]
        exact iht
      · intro c cs hc
        rw [ht] at hc
        exact ihh c cs hc
    · have hf : cdash false (a :: as) = a :: cdash false as := by simp [cdash, ha]
      have ht : cdash true (a :: as) = a :: cdash false as := by simp [cdash, ha]
      have hcons : NoDD (a :: cdash false as) := by
        rw [NoDD, List.chain'_cons']
        refine ⟨?_, ihf⟩
        intro b _ hcon
        exact ha hcon.1
      refine ⟨?_, ?_, ?_⟩
      · rw [hf]
        exact hcons
      · rw [ht]
        exact hcons
      · intro c cs hc
        rw [ht] at hc
        have hac : a = c := (List.cons_eq_cons.mp hc).1
        rw [← hac]
        exact ha

theorem NoDD_tail {c : Char} {l : Chars} (h : NoDD (c :: l)) : NoDD l :=
  List.Chain'.tail h

theorem NoDD_dropWhile (p : Char → Bool) (l : Chars) (h : NoDD l) :
    NoDD (l.dropWhile p) := by
  induction l with
  | nil => simpa
  | cons a as ih =>
    rw [List.dropWhile_cons]
    by_cases hp : p a = true
    · rw [if_pos hp]
      exact ih (NoDD_tail h)
    · rw [if_neg hp]
      exact h

theorem rstripBy_cons (p : Char → Bool) (c : Char) (cs : Chars) :
    rstripBy p (c :: cs) =
      if (rstripBy p cs).isEmpty && p c then [] else c :: rstripBy p cs := rfl

theorem rstripBy_head (p : Char → Bool) (l : Chars) :
    (rstripBy p l).head? = none ∨ (rstripBy p l).head? = l.head? := by
  cases l with
  | nil => exact Or.inl rfl
  | cons a as =>
    rw [rstripBy_cons]
    by_cases h : ((rstripBy p as).isEmpty && p a) = true
    · left
      rw [if_pos h]
      rfl
    · right
      rw [if_neg h]
      rfl

theorem NoDD_rstripBy (p : Char → Bool) (l : Chars) (h : NoDD l) :
    NoDD (rstripBy p l) := by
  induction l with
  | nil => simpa
  | cons a as ih =>
    have iht := ih (NoDD_tail h)
    rw [rstripBy_cons]
    by_cases hc : ((rstripBy p as).isEmpty && p a) = true
    · rw [if_pos hc]
      simp [NoDD]
    · rw [if_neg hc]
      rw [NoDD, List.chain'_cons']
      refine ⟨?_, iht⟩
      intro b hb
      rcases rstripBy_head p as with hh | hh
      · rw [hh] at hb
        cases hb
      · rw [hh] at hb
        cases as with
        | nil => cases hb
        | cons x xs =>
          have hbx : x = b := by simpa using hb
          intro hcon
          exact (List.chain'_cons.mp h).1 ⟨hcon.1, hbx.trans hcon.2⟩

theorem rstripBy_last (p : Char → Bool) (l : Chars) :
    ∀ c, (rstripBy p l).getLast? = some c → p c = false := by
  induction l with
  | nil =>
    intro c hc
    simp [rstripBy] at hc
  | cons a as ih =>
    intro c hc
    rw [rstripBy_cons] at hc
    by_cases hcond : ((rstripBy p as).isEmpty && p a) = true
    · rw [if_pos hcond] at hc
      cases hc
    · rw [if_neg hcond] at hc
      cases hr : rstripBy p as with
      | nil =>
        rw [hr] at hc
        have hca : a = c := by simpa using hc
        rw [hr] at hcond
        rw [← hca]
        simpa using hcond
      | cons x xs =>
        rw [hr, List.getLast?_cons_cons] at hc
        exact ih c (by rw [hr]; exact hc)

theorem rstripBy_mem (p : Char → Bool) (l : Chars) : ∀ c ∈ rstripBy p l, c ∈ l := by
  induction l with
  | nil => simp [rstripBy]
  | cons a as ih =>
    intro c hc
    rw [rstripBy_cons] at hc
    by_cases hcond : ((rstripBy p as).isEmpty && p a) = true
    · rw [if_pos hcond] at hc
      cases hc
    · rw [if_neg hcond] at hc
      rcases List.mem_cons.mp hc with rfl | hc
      · exact List.mem_cons_self _ _
      · exact List.mem_cons_of_mem _ (ih c hc)

theorem dropWhile_head (p : Char → Bool) (l : Chars) :
    ∀ c, (l.dropWhile p).head? = some c → p c = false := by
  induction l with
  | nil =>
    intro c hc
    cases hc
  | cons a as ih =>
    intro c hc
    rw [List.dropWhile_cons] at hc
    by_cases hp : p a = true
    · rw [if_pos hp] at hc
      exact ih c hc
    · rw [if_neg hp] at hc
      have hca : a = c := by simpa using hc
      rw [← hca]
      simpa using hp

theorem dropWhile_fix (p : Char → Bool) (l : Chars)
    (h : ∀ c, l.head? = some c → p c = false) : l.dropWhile p = l := by
  cases l with
  | nil => rfl
  | cons a as =>
    rw [List.dropWhile_cons, if_neg]
    rw [h a rfl]
    simp

theorem rstripBy_fix (p : Char → Bool) (l : Chars)
    (h : ∀ c, l.getLast? = some c → p c = false) : rstripBy p l = l := by
  induction l with
  | nil => rfl
  | cons a as ih =>
    cases as with
    | nil =>
      have hp : p a = false := h a rfl
      simp [rstripBy, hp]
    | cons x xs =>
      have ih' : rstripBy p (x :: xs) = x :: xs :=
        ih (fun c hc => h c (by rw [List.getLast?_cons_cons]; exact hc))
      rw [rstripBy_cons, ih']
      simp

theorem subNA_fix : ∀ (n : Nat) (l : Chars), l.length ≤ n →
    (∀ c ∈ l, slugChar c = true) → NoDD l → subNA false l = l := by
  intro n
  induction n with
  | zero =>
    intro l hl _ _
    have : l = [] := List.eq_nil_of_length_eq_zero (Nat.le_zero.mp hl)
    subst this
    rfl
  | succ n ih =>
    intro l hl hall hdd
    cases l with
    | nil => rfl
    | cons a as =>
      by_cases ha : isLowerAl a = true
      · have hrec : subNA false as = as :=
          ih as (by simpa using Nat.le_of_succ_le_succ (by simpa using hl))
            (fun c hc => hall c (List.mem_cons_of_mem a hc)) (NoDD_tail hdd)
        simp only [subNA, if_pos ha, hrec]
      · have ha' : a = '-' := by
          have hsc := hall a (List.mem_cons_self a as)
          simp only [slugChar, Bool.or_eq_true, beq_iff_eq] at hsc
          rcases hsc with hsc | hsc
          · exact absurd hsc ha
          · exact hsc
        subst ha'
        cases as with
        | nil => decide
        | cons x xs =>
          have hx : x ≠ '-' := by
            intro hxx
            exact (List.chain'_cons.mp hdd).1 ⟨rfl, hxx⟩
          have hx' : isLowerAl x = true := by
            have hsc := hall x (List.mem_cons_of_mem _ (List.mem_cons_self x xs))
            simp only [slugChar, Bool.or_eq_true, beq_iff_eq] at hsc
            rcases hsc with hsc | hsc
            · exact hsc
            · exact absurd hsc hx
          have hrec : subNA false xs = xs := by
            refine ih xs ?_ (fun c hc => hall c ?_) ?_
            · have : xs.length + 2 ≤ n + 1 := by simpa using hl
              omega
            · exact List.mem_cons_of_mem _ (List.mem_cons_of_mem _ hc)
            · exact NoDD_tail (NoDD_tail hdd)
          show '-' :: subNA true (x :: xs) = '-' :: x :: xs
          simp only [subNA, if_pos hx', hrec]

theorem cdash_fix : ∀ (n : Nat) (l : Chars), l.length ≤ n → NoDD l →
    cdash false l = l := by
  intro n
  induction n with
  | zero =>
    intro l hl _
    have : l = [] := List.eq_nil_of_length_eq_zero (Nat.le_zero.mp hl)
    subst this
    rfl
  | succ n ih =>
    intro l hl hdd
    cases l with
    | nil => rfl
    | cons a as =>
      by_cases ha : a = '-'
      · subst ha
        cases as with
        | nil => decide
        | cons x xs =>
          have hx : ¬(x = '-') := by
            intro hxx
            exact (List.chain'_cons.mp hdd).1 ⟨rfl, hxx⟩
          have hrec : cdash false xs = xs := by
            refine ih xs ?_ (NoDD_tail (NoDD_tail hdd))
            have : xs.length + 2 ≤ n + 1 := by simpa using hl
            omega
          show '-' :: cdash true (x :: xs) = '-' :: x :: xs
          simp only [cdash, if_neg hx, hrec]
      · have hrec : cdash false as = as :=
          ih as (by simpa using Nat.le_of_succ_le_succ (by simpa using hl)) (NoDD_tail hdd)
        simp only [cdash, if_neg ha, hrec]

theorem goodSlug_game : GoodSlug (str "game") := by
  have hnodd : NoDD (str "game") := by
    show List.Chain' _ ['g', 'a', 'm', 'e']
    rw [List.chain'_cons, List.chain'_cons, List.chain'_cons]
    exact ⟨by decide, by decide, by decide, List.chain'_singleton _⟩
  refine ⟨by decide, hnodd, ?_, ?_⟩
  · intro c hc
    rw [(by decide : (str "game").head? = some 'g')] at hc
    injection hc with h
    rw [← h]
    decide
  · intro c hc
    rw [(by decide : (str "game").getLast? = some 'e')] at hc
    injection hc with h
    rw [← h]
    decide

theorem slugify_good (s : Chars) : GoodSlug (slugify s) ∧ slugify s ≠ [] := by
  simp only [slugify]
  split
  · exact ⟨goodSlug_game, by decide⟩
  · rename_i hemp
    simp only [pyStrip, lstripBy] at hemp ⊢
    constructor
    · refine ⟨?_, ?_, ?_, ?_⟩
      · intro c hc
        have h1 := rstripBy_mem _ _ c hc
        have h2 : c ∈ cdash false (subNA false ((rstripBy pyIsSpace
            (List.dropWhile pyIsSpace s)).map pyLowerChar)) :=
          List.Sublist.mem h1 (List.dropWhile_sublist _)
        exact subNA_allchar _ false c (cdash_mem _ false c h2)
      · exact NoDD_rstripBy _ _ (NoDD_dropWhile _ _ (cdash_good _).1)
      · intro c hc
        rcases rstripBy_head (fun c => c = '-')
            (List.dropWhile (fun c => c = '-') (cdash false (subNA false
              ((rstripBy pyIsSpace (List.dropWhile pyIsSpace s)).map pyLowerChar)))) with
          hh | hh
        · rw [hh] at hc
          cases hc
        · rw [hh] at hc
          have := dropWhile_head _ _ c hc
          simpa using this
      · intro c hc
        have := rstripBy_last _ _ c hc
        simpa using this
    · intro hnil
      exact hemp (by rw [hnil]; rfl)

theorem slugify_fix (l : Chars) (hg : GoodSlug l) (hne : l ≠ []) : slugify l = l := by
  obtain ⟨hall, hdd, hhead, hlast⟩ := hg
  have h1 : pyStrip pyIsSpace l = l := by
    unfold pyStrip lstripBy
    rw [dropWhile_fix _ _
      (fun c hc => slugChar_not_space (hall c (List.mem_of_mem_head? hc)))]
    exact rstripBy_fix _ _
      (fun c hc => slugChar_not_space (hall c (List.mem_of_mem_getLast? hc)))
  have h2 : l.map pyLowerChar = l := by
    have hid : ∀ c ∈ l, pyLowerChar c = c := fun c hc => pyLowerChar_fix (hall c hc)
    calc l.map pyLowerChar = l.map id := List.map_congr_left hid
      _ = l := List.map_id l
  have h3 : subNA false l = l := subNA_fix l.length l le_rfl hall hdd
  have h4 : cdash false l = l := cdash_fix l.length l le_rfl hdd
  have h5 : pyStrip (fun c => c = '-') l = l := by
    unfold pyStrip lstripBy
    rw [dropWhile_fix _ _ (fun c hc => by simpa using hhead c hc)]
    exact rstripBy_fix _ _ (fun c hc => by simpa using hlast c hc)
  simp only [slugify]
  rw [h1, h2, h3, h4, h5]
  rw [if_neg (fun h => hne (List.isEmpty_iff.mp h))]

theorem ofNat_toNat_small {n : Nat} (h : n < 55296) : (Char.ofNat n).toNat = n := by
  unfold Char.ofNat
  rw [dif_pos (by left; omega : Nat.isValidChar n)]
  rfl

theorem pyUpperChar_upper (x : Char) :
    ¬(97 ≤ (pyUpperChar x).toNat ∧ (pyUpperChar x).toNat ≤ 122) := by
  unfold pyUpperChar
  by_cases h : 97 ≤ x.toNat ∧ x.toNat ≤ 122
  · rw [if_pos h]
    have hof : (Char.ofNat (x.toNat - 32)).toNat = x.toNat - 32 :=
      ofNat_toNat_small (by omega)
    omega
  · rw [if_neg h]
    omega

theorem pyUpperChar_fixpoint {c : Char}
    (hnl : ¬(97 ≤ c.toNat ∧ c.toNat ≤ 122)) : pyUpperChar c = c := by
  unfold pyUpperChar
  rw [if_neg hnl]

theorem labelify_good (s : Chars) :
    (∀ c ∈ labelify s, keepAl c = true ∧ ¬(97 ≤ c.toNat ∧ c.toNat ≤ 122)) ∧
    (labelify s).length ≤ 11 ∧ labelify s ≠ [] := by
  simp only [labelify]
  split
  · refine ⟨?_, by decide, by decide⟩
    intro c hc
    rw [(by decide : str "GAME" = ['G', 'A', 'M', 'E'])] at hc
    have : c = 'G' ∨ c = 'A' ∨ c = 'M' ∨ c = 'E' := by simpa using hc
    rcases this with rfl | rfl | rfl | rfl <;> exact ⟨by decide, by decide⟩
  · rename_i hemp
    refine ⟨?_, ?_, ?_⟩
    · intro c hc
      have hc' : c ∈ (s.map pyUpperChar).filter keepAl := List.mem_of_mem_take hc
      rcases List.mem_filter.mp hc' with ⟨hmem, hk⟩
      rcases List.mem_map.mp hmem with ⟨x, _, rfl⟩
      exact ⟨hk, pyUpperChar_upper x⟩
    · rw [List.length_take]
      exact min_le_left _ _
    · intro hnil
      exact hemp (by rw [hnil]; rfl)

theorem labelify_fix (l : Chars)
    (hchars : ∀ c ∈ l, keepAl c = true ∧ ¬(97 ≤ c.toNat ∧ c.toNat ≤ 122))
    (hlen : l.length ≤ 11) (hne : l ≠ []) : labelify l = l := by
  have hmap : l.map pyUpperChar = l := by
    have hid : ∀ c ∈ l, pyUpperChar c = c := fun c hc => pyUpperChar_fixpoint (hchars c hc).2
    calc l.map pyUpperChar = l.map id := List.map_congr_left hid
      _ = l := List.map_id l
  have hfil : l.filter keepAl = l :=
    List.filter_eq_self.mpr (fun c hc => (hchars c hc).1)
  have htake : l.take 11 = l := List.take_of_length_le hlen
  simp only [labelify]
  rw [hmap, hfil, htake]
  rw [if_neg (fun h => hne (List.isEmpty_iff.mp h))]

/-- C10: `slugify` and `labelify` are idempotent on every input, and each
fallback value is a fixed point. -/
theorem c10_slug_label_idempotent (s : Chars) :
    slugify (slugify s) = slugify s ∧ labelify (labelify s) = labelify s ∧
    slugify (str "game") = str "game" ∧ labelify (str "GAME") = str "GAME" := by
  obtain ⟨hg, hne⟩ := slugify_good s
  obtain ⟨hc, hlen, hne2⟩ := labelify_good s
  exact ⟨slugify_fix _ hg hne, labelify_fix _ hc hlen hne2, by decide, by decide⟩

/-! ## C2 and C9: digest verification -/

/-- C2: with verification enabled and a non-empty expected digest,
verification succeeds exactly when the digest of the downloaded bytes equals
the expected value case-insensitively; a mismatch fails with both digests,
and the written runtime file stays on disk in every case. -/
theorem c2_digest_verification (hashHex : List Nat → Chars) (data : List Nat)
    (expected : Chars) (fs : RtFS) (hne : expected ≠ []) :
    ((download_runtime hashHex (some data) expected true fs).2 = .ok ↔
        lowerL (hashHex data) = lowerL expected) ∧
    (download_runtime hashHex (some data) expected true fs).1.runtimeFile = some data ∧
    (lowerL (hashHex data) ≠ lowerL expected →
      (download_runtime hashHex (some data) expected true fs).2 =
        .mismatch expected (hashHex data)) := by
  have hne' : expected.isEmpty = false := by
    cases expected with
    | nil => exact absurd rfl hne
    | cons a l => rfl
  by_cases heq : lowerL (hashHex data) = lowerL expected
  · simp [download_runtime, hne', heq]
  · simp [download_runtime, hne', heq]

/-- C2 instance: a one-byte file whose digest reads `ab` against expected
`AB` (match) and checking the mismatch branch shape via the round trip. -/
theorem c2_digest_verification_inst :
    ((download_runtime hash0 (some [0]) (str "AB") true ⟨none⟩).2 = .ok ↔
        lowerL (hash0 [0]) = lowerL (str "AB")) ∧
    (download_runtime hash0 (some [0]) (str "AB") true ⟨none⟩).1.runtimeFile = some [0] ∧
    (lowerL (hash0 [0]) ≠ lowerL (str "AB") →
      (download_runtime hash0 (some [0]) (str "AB") true ⟨none⟩).2 =
        .mismatch (str "AB") (hash0 [0])) :=
  c2_digest_verification hash0 [0] (str "AB") ⟨none⟩ (by decide)

/-- C9: an empty expected digest disables the comparison entirely, even with
the verify flag set: the download is accepted unconditionally and no
mismatch error can arise. -/
theorem c9_empty_sha_skips_verification (hashHex : List Nat → Chars)
    (fetched : Option (List Nat)) (verify : Bool) (fs : RtFS) :
    (∀ e a, (download_runtime hashHex fetched [] verify fs).2 ≠ .mismatch e a) ∧
    (∀ d, fetched = some d →
      download_runtime hashHex fetched [] verify fs = (⟨some d⟩, .ok)) := by
  cases fetched <;> simp [download_runtime]

/-! ## The worker: structural lemmas -/

theorem pf_mem (w : World) (e : Event) (he : e ∈ (partition_and_format w).1) :
    e = .wipefs ∨ e = .parted ∨ e = .partprobe ∨ e = .udevadmSettle ∨ e = .mkfs := by
  unfold partition_and_format at he
  repeat' split at he
  all_goals simp only [List.mem_cons, List.not_mem_nil, or_false] at he
  all_goals tauto

theorem mp_mem (w : World) (e : Event) (he : e ∈ (mount_partition w).1) :
    e = .mkdirMount ∨ e = .unmountMounts ∨ e = .mountPart ∨ e = .chownMount := by
  unfold mount_partition at he
  repeat' split at he
  all_goals simp only [List.mem_cons, List.not_mem_nil, or_false] at he
  all_goals tauto

theorem re_mem (inp : Input) (w : World) (e : Event) (he : e ∈ (resolveExe inp w).1) :
    e = .chmodExe ∨ e = .warnNoExe := by
  unfold resolveExe at he
  repeat' split at he
  all_goals simp only [List.mem_cons, List.not_mem_nil, or_false] at he
  all_goals tauto

theorem prep_mem (inp : Input) (w : World) (e : Event) (he : e ∈ prepEvents inp w) :
    e = .checkUdisks ∨ e = .stopUdisks := by
  unfold prepEvents at he
  repeat' split at he
  all_goals simp only [List.mem_cons, List.not_mem_nil, or_false] at he
  all_goals tauto

theorem mem_prep_iff (inp : Input) (w : World) (e : Event) :
    e ∈ prepEvents inp w ↔
      (inp.no_format = false ∧ (e = .checkUdisks ∨
        (e = .stopUdisks ∧ w.udisksCheckOk = true ∧ w.udisksActive = true))) := by
  unfold prepEvents
  by_cases hnf : inp.no_format = true
  · simp [hnf]
  · have hnf' : inp.no_format = false := by simpa using hnf
    by_cases hcw : (w.udisksCheckOk && w.udisksActive) = true
    · simp only [Bool.and_eq_true] at hcw
      simp [hnf', hcw.1, hcw.2]
    · simp only [Bool.and_eq_true] at hcw
      simp [hnf', hcw]

theorem pf_pool (w : World) (e : Event) (he : e ∈ (partition_and_format w).1) :
    e ∈ bodyEventPool := by
  rcases pf_mem w e he with rfl | rfl | rfl | rfl | rfl <;> decide

theorem mp_pool (w : World) (e : Event) (he : e ∈ (mount_partition w).1) :
    e ∈ bodyEventPool := by
  rcases mp_mem w e he with rfl | rfl | rfl | rfl <;> decide

theorem re_pool (inp : Input) (w : World) (e : Event) (he : e ∈ (resolveExe inp w).1) :
    e ∈ bodyEventPool := by
  rcases re_mem inp w e he with rfl | rfl <;> decide

set_option maxHeartbeats 1000000 in
theorem workerTail_mem (hh : List Nat → Chars) (inp : Input) (w : World) :
    ∀ e ∈ (workerTail hh inp w).1, e ∈ bodyEventPool := by
  intro e he
  simp only [workerTail] at he
  repeat' split at he
  all_goals simp at he
  all_goals
    repeat' (first
      | exact pf_pool w e he
      | exact mp_pool w e he
      | exact re_pool inp w e he
      | (subst he; decide)
      | rcases he with he | he)

theorem workerBody_mem (hh : List Nat → Chars) (inp : Input) (w : World) :
    ∀ e ∈ (workerBody hh inp w).events, e ∈ prepEvents inp w ∨ e ∈ bodyEventPool := by
  intro e he
  simp only [workerBody] at he
  rcases List.mem_append.mp he with h | h
  · exact Or.inl h
  · rcases List.mem_cons.mp h with rfl | h
    · exact Or.inr (by decide)
    · exact Or.inr (workerTail_mem hh inp w e h)

theorem worker_events_eq (hh : List Nat → Chars) (inp : Input) (w : World) :
    (worker hh inp w).events = (workerBody hh inp w).events ++
      (if udisksWasActive inp w then [Event.startUdisks] else []) := by
  unfold worker
  by_cases hact : udisksWasActive inp w = true <;> simp [hact]

theorem worker_outcome_eq (hh : List Nat → Chars) (inp : Input) (w : World) :
    (worker hh inp w).outcome = (workerBody hh inp w).outcome := by
  unfold worker
  by_cases hact : udisksWasActive inp w = true <;> simp [hact]

theorem worker_manifest_eq (hh : List Nat → Chars) (inp : Input) (w : World) :
    (worker hh inp w).manifest = (workerBody hh inp w).manifest := by
  unfold worker
  by_cases hact : udisksWasActive inp w = true <;> simp [hact]

theorem mem_ite_start (c : Bool) (e : Event) :
    (e ∈ if c = true then [Event.startUdisks] else []) ↔
      (c = true ∧ e = .startUdisks) := by
  by_cases h : c = true <;> simp [h]

/-! ## C4: unconditional cleanup -/

/-- C4: on every build — success or failure, whatever step failed — the final
cleanup restarts the automount service exactly when it was detected active at
the start (which only happens when formatting was requested), and the restart
attempt's own outcome never changes the build's outcome. -/
theorem c4_cleanup_restart (hh : List Nat → Chars) (inp : Input) (w : World) (b : Bool) :
    ((Event.startUdisks ∈ (worker hh inp w).events) ↔
      (inp.no_format = false ∧ w.udisksCheckOk = true ∧ w.udisksActive = true)) ∧
    (worker hh inp { w with startOk := b }).outcome = (worker hh inp w).outcome := by
  constructor
  · have hbody : Event.startUdisks ∉ (workerBody hh inp w).events := by
      intro hmem
      rcases workerBody_mem hh inp w _ hmem with h | h
      · rcases prep_mem inp w _ h with h1 | h1 <;> exact absurd h1 (by decide)
      · exact absurd h (by decide)
    rw [worker_events_eq, List.mem_append, mem_ite_start]
    constructor
    · intro hmem
      rcases hmem with hmem | hmem
      · exact absurd hmem hbody
      · have hact := hmem.1
        unfold udisksWasActive at hact
        simp only [Bool.and_eq_true, Bool.not_eq_true'] at hact
        exact ⟨hact.1.1, hact.1.2, hact.2⟩
    · intro hrhs
      right
      refine ⟨?_, rfl⟩
      unfold udisksWasActive
      simp [hrhs.1, hrhs.2.1, hrhs.2.2]
  · rfl

/-! ## C8: the service check and the skip-format flag -/

theorem mem_ite_list (c : Bool) (l1 l2 : List Event) (e : Event) :
    (e ∈ if c = true then l1 else l2) ↔
      ((c = true ∧ e ∈ l1) ∨ (c = false ∧ e ∈ l2)) := by
  by_cases h : c = true
  · simp [h]
  · have h' : c = false := by simpa using h
    simp [h']

/-- C8 (amended): the automount-daemon detection is the worker's first step
only when the skip-format flag is unset — it then precedes the unmount step;
when the flag is set, neither the detection nor the service stop happens at
all. -/
theorem c8_service_check_gated (hh : List Nat → Chars) (inp : Input) (w : World) :
    (inp.no_format = false → (worker hh inp w).events.head? = some .checkUdisks) ∧
    (inp.no_format = true → Event.checkUdisks ∉ (worker hh inp w).events ∧
      Event.stopUdisks ∉ (worker hh inp w).events) := by
  constructor
  · intro hnf
    have hbody : (workerBody hh inp w).events.head? = some .checkUdisks := by
      simp only [workerBody]
      simp [prepEvents, hnf, List.cons_append]
    rw [worker_events_eq, List.head?_append, hbody]
    rfl
  · intro hnf
    have hkey : ∀ e, e ∈ (worker hh inp w).events → e ∈ bodyEventPool ∨ e = .startUdisks := by
      intro e he
      rw [worker_events_eq] at he
      rcases List.mem_append.mp he with he | he
      · rcases workerBody_mem hh inp w e he with h | h
        · rw [(by simp [prepEvents, hnf] : prepEvents inp w = [])] at h
          cases h
        · exact Or.inl h
      · exact Or.inr ((mem_ite_start _ _).mp he).2
    constructor
    · intro hmem
      rcases hkey _ hmem with h | h
      · exact absurd h (by decide)
      · exact absurd h (by decide)
    · intro hmem
      rcases hkey _ hmem with h | h
      · exact absurd h (by decide)
      · exact absurd h (by decide)

/-- C8 counterexample: a concrete skip-format build on a world where the
daemon is active and detectable performs no detection and no stop at all —
the claim's "regardless of the skip-format flag" fails on the code. -/
theorem c8_skip_format_cex :
    inpA.no_format = true ∧ wA.udisksCheckOk = true ∧ wA.udisksActive = true ∧
    Event.checkUdisks ∉ (worker hash0 inpA wA).events ∧
    Event.stopUdisks ∉ (worker hash0 inpA wA).events := by
  decide

/-! ## C3: fetch or verification failure halts the build mounted -/

/-- C3: when device preparation succeeds but the runtime fetch fails or its
digest mismatches, the build ends `Failed` with no content copy, no manifest,
the partition mounted and never unmounted afterwards. -/
theorem c3_fetch_failure_halts (hh : List Nat → Chars) (inp : Input) (w : World)
    (h1 : w.unmountOk = true) (h2 : w.mkdirOk = true) (h3 : w.unmount2Ok = true)
    (h4 : w.mountOk = true) (h5 : w.chownOk = true)
    (h6 : inp.no_format = false →
      w.wipeOk = true ∧ w.partedOk = true ∧ w.settleOk = true ∧ w.mkfsOk = true)
    (h7 : w.fetched = none ∨ ∃ d, w.fetched = some d ∧ inp.verify_runtime = true ∧
      inp.runtime_sha ≠ [] ∧ lowerL (hh d) ≠ lowerL inp.runtime_sha) :
    (worker hh inp w).outcome = .failed ∧
    (worker hh inp w).manifest = none ∧
    Event.copyFiles ∉ (worker hh inp w).events ∧
    Event.writeKzi ∉ (worker hh inp w).events ∧
    Event.mountPart ∈ (worker hh inp w).events ∧
    Event.ejectUnmount ∉ (worker hh inp w).events := by
  have hmp : mount_partition w =
      ([.mkdirMount, .unmountMounts, .mountPart, .chownMount], true) := by
    unfold mount_partition
    simp [h2, h3, h4, h5]
  have hfmt : (if inp.no_format then (([] : List Event), true)
      else partition_and_format w) =
      ((if inp.no_format then ([] : List Event)
        else [.wipefs, .parted, .partprobe, .udevadmSettle, .mkfs]), true) := by
    by_cases hnf : inp.no_format = true
    · simp [hnf]
    · have hnf' : inp.no_format = false := by simpa using hnf
      obtain ⟨ha, hb, hc2, hd⟩ := h6 hnf'
      simp [hnf', partition_and_format, ha, hb, hc2, hd]
  rcases h7 with hf | ⟨d, hf, hv, hsha, hne⟩
  · simp [worker_outcome_eq, worker_manifest_eq, worker_events_eq, workerBody,
      workerTail, mem_ite_start, mem_prep_iff, mem_ite_list, hfmt, hmp, h1, hf]
  · have hse : inp.runtime_sha.isEmpty = false := List.isEmpty_eq_false.mpr hsha
    have hdec : decide (lowerL (hh d) = lowerL inp.runtime_sha) = false :=
      decide_eq_false hne
    simp [worker_outcome_eq, worker_manifest_eq, worker_events_eq, workerBody,
      workerTail, mem_ite_start, mem_prep_iff, mem_ite_list, hfmt, hmp, h1, hf,
      hv, hse, hdec]

/-- C3 instance: a formatting build whose runtime fetch fails. -/
theorem c3_fetch_failure_halts_inst :
    (worker hash0 inpB wB).outcome = .failed ∧
    (worker hash0 inpB wB).manifest = none ∧
    Event.copyFiles ∉ (worker hash0 inpB wB).events ∧
    Event.writeKzi ∉ (worker hash0 inpB wB).events ∧
    Event.mountPart ∈ (worker hash0 inpB wB).events ∧
    Event.ejectUnmount ∉ (worker hash0 inpB wB).events :=
  c3_fetch_failure_halts hash0 inpB wB (by decide) (by decide) (by decide) (by decide)
    (by decide) (fun _ => by decide) (Or.inl (by decide))

/-! ## C7: skip-format windows build without a source directory -/

/-- C7: with the skip-format flag set the build never wipes, partitions or
formats, yet still mounts, fetches the runtime and writes the manifest; for a
windows build where the configured executable does not exist and no `.exe` is
found, a warning is logged and the manifest's `Exec` stays
`content/<configured-exe>`. -/
theorem c7_skip_format_completes (hh : List Nat → Chars) (inp : Input) (w : World)
    (d : List Nat)
    (hnf : inp.no_format = true) (hrt : inp.runtime = .windows) (hsrc : inp.src = [])
    (hej : inp.eject = false) (hex : w.exeExists = false)
    (hcand : find_exe_under w.contentTree .windows = [])
    (h1 : w.unmountOk = true) (h2 : w.mkdirOk = true) (h3 : w.unmount2Ok = true)
    (h4 : w.mountOk = true) (h5 : w.chownOk = true)
    (hf : w.fetched = some d)
    (hv : inp.verify_runtime = true → inp.runtime_sha ≠ [] →
      lowerL (hh d) = lowerL inp.runtime_sha) :
    (worker hh inp w).outcome = .done ∧
    Event.wipefs ∉ (worker hh inp w).events ∧
    Event.parted ∉ (worker hh inp w).events ∧
    Event.mkfs ∉ (worker hh inp w).events ∧
    Event.mountPart ∈ (worker hh inp w).events ∧
    Event.downloadRt ∈ (worker hh inp w).events ∧
    Event.writeKzi ∈ (worker hh inp w).events ∧
    Event.warnNoExe ∈ (worker hh inp w).events ∧
    (worker hh inp w).manifest =
      some (manifestText inp.name inp.slug (str "content/" ++ inp.exe) (str "windows")) := by
  have hmp : mount_partition w =
      ([.mkdirMount, .unmountMounts, .mountPart, .chownMount], true) := by
    unfold mount_partition
    simp [h2, h3, h4, h5]
  have hre : resolveExe inp w = ([.warnNoExe], inp.exe) := by
    unfold resolveExe
    rw [hrt]
    simp [hex, hcand]
  by_cases hb : (inp.verify_runtime && !inp.runtime_sha.isEmpty) = true
  · have hb' : inp.verify_runtime = true ∧ (!inp.runtime_sha.isEmpty) = true := by
      simpa [Bool.and_eq_true] using hb
    have hb2 : inp.runtime_sha ≠ [] := by
      have hb2' := hb'.2
      simp only [Bool.not_eq_true', List.isEmpty_eq_false] at hb2'
      exact hb2'
    have hdec : decide (lowerL (hh d) = lowerL inp.runtime_sha) = true :=
      decide_eq_true (hv hb'.1 hb2)
    simp [worker_outcome_eq, worker_manifest_eq, worker_events_eq, workerBody,
      workerTail, udisksWasActive, mem_ite_start, mem_prep_iff, mem_ite_list,
      hmp, hre, hnf, hsrc, hej, h1, hf, hb, hdec, execLine, runtimeStr, hrt]
  · simp [worker_outcome_eq, worker_manifest_eq, worker_events_eq, workerBody,
      workerTail, udisksWasActive, mem_ite_start, mem_prep_iff, mem_ite_list,
      hmp, hre, hnf, hsrc, hej, h1, hf, hb, execLine, runtimeStr, hrt]

/-- C7 instance: the concrete scenario-A build. -/
theorem c7_skip_format_completes_inst :
    (worker hash0 inpA wA).outcome = .done ∧
    Event.wipefs ∉ (worker hash0 inpA wA).events ∧
    Event.parted ∉ (worker hash0 inpA wA).events ∧
    Event.mkfs ∉ (worker hash0 inpA wA).events ∧
    Event.mountPart ∈ (worker hash0 inpA wA).events ∧
    Event.downloadRt ∈ (worker hash0 inpA wA).events ∧
    Event.writeKzi ∈ (worker hash0 inpA wA).events ∧
    Event.warnNoExe ∈ (worker hash0 inpA wA).events ∧
    (worker hash0 inpA wA).manifest =
      some (manifestText inpA.name inpA.slug (str "content/" ++ inpA.exe) (str "windows")) :=
  c7_skip_format_completes hash0 inpA wA [0] (by decide) (by decide) (by decide)
    (by decide) (by decide) (by decide) (by decide) (by decide) (by decide)
    (by decide) (by decide) (by decide) (by decide)

/-! ## C1: manifest format, round trip, and shape of every successful build -/

theorem workerBody_outcome (hh : List Nat → Chars) (inp : Input) (w : World) :
    (workerBody hh inp w).outcome = (workerTail hh inp w).2.2 := rfl

theorem workerBody_manifest (hh : List Nat → Chars) (inp : Input) (w : World) :
    (workerBody hh inp w).manifest = (workerTail hh inp w).2.1 := rfl

set_option maxHeartbeats 2000000 in
theorem workerTail_shape (hh : List Nat → Chars) (inp : Input) (w : World) :
    (workerTail hh inp w).2.2 = Outcome.failed ∨
    (workerTail hh inp w).2.1 = some (manifestText inp.name inp.slug
      (execLine inp.runtime (resolveExe inp w).2) (runtimeStr inp.runtime)) := by
  simp only [workerTail]
  repeat' split
  all_goals
    first
      | exact Or.inl rfl
      | exact Or.inr rfl

/-- C1: a successful build's manifest is newline-terminated `Key=Value` lines
with exactly the keys Name, Id, Exec, Icon, Runtime in that order; `Icon` is
the fixed `kazeta/icon.png`; `Exec` is `content/<path>` for windows and
`cd content && ./<path>` for linux; re-parsing the written text recovers the
same five values in that field order; and every build that reaches `Done`
wrote its manifest in exactly this form. -/
theorem c1_manifest_roundtrip (name slug exe : Chars) (rt : Runtime)
    (h1 : '\n' ∉ name) (h2 : '\n' ∉ slug) (h3 : '\n' ∉ exe) :
    parseManifest (manifestText name slug (execLine rt exe) (runtimeStr rt)) =
      [(str "Name", name), (str "Id", slug), (str "Exec", execLine rt exe),
       (str "Icon", str "kazeta/icon.png"), (str "Runtime", runtimeStr rt)] ∧
    (manifestText name slug (execLine rt exe) (runtimeStr rt)).getLast? = some '\n' ∧
    execLine .windows exe = str "content/" ++ exe ∧
    execLine .linux exe = str "cd content && ./" ++ exe ∧
    (∀ (hh : List Nat → Chars) (inp : Input) (w : World),
      (worker hh inp w).outcome = .done →
      ∃ ex, (worker hh inp w).manifest = some (manifestText inp.name inp.slug
        (execLine inp.runtime ex) (runtimeStr inp.runtime))) := by
  have hrt : '\n' ∉ runtimeStr rt := by cases rt <;> decide
  have hex : '\n' ∉ execLine rt exe := by
    cases rt
    · exact nl_not_mem_append (by decide) h3
    · exact nl_not_mem_append (by decide) h3
  refine ⟨parse_manifestText name slug _ _ h1 h2 hex hrt, ?_, rfl, rfl, ?_⟩
  · have hD : str "\n" = ['\n'] := by decide
    have e2 : manifestText name slug (execLine rt exe) (runtimeStr rt) =
        (str "Name=" ++ (name ++ (str "\nId=" ++ (slug ++ (str "\nExec=" ++
          (execLine rt exe ++ (str "\nIcon=kazeta/icon.png\nRuntime=" ++
            runtimeStr rt))))))) ++ ['\n'] := by
      simp [manifestText, hD, List.append_assoc]
    rw [e2, List.getLast?_concat]
  · intro hh inp w hdone
    rw [worker_outcome_eq, workerBody_outcome] at hdone
    rw [worker_manifest_eq, workerBody_manifest]
    rcases workerTail_shape hh inp w with h | h
    · rw [h] at hdone
      exact absurd hdone (by decide)
    · exact ⟨(resolveExe inp w).2, h⟩

/-- C1 instance at a concrete record. -/
theorem c1_manifest_roundtrip_inst :
    parseManifest (manifestText (str "My Game") (str "my-game")
        (execLine .windows (str "Game.exe")) (runtimeStr .windows)) =
      [(str "Name", str "My Game"), (str "Id", str "my-game"),
       (str "Exec", execLine .windows (str "Game.exe")),
       (str "Icon", str "kazeta/icon.png"), (str "Runtime", runtimeStr .windows)] ∧
    (manifestText (str "My Game") (str "my-game")
        (execLine .windows (str "Game.exe")) (runtimeStr .windows)).getLast? = some '\n' ∧
    execLine .windows (str "Game.exe") = str "content/" ++ str "Game.exe" ∧
    execLine .linux (str "Game.exe") = str "cd content && ./" ++ str "Game.exe" ∧
    (∀ (hh : List Nat → Chars) (inp : Input) (w : World),
      (worker hh inp w).outcome = .done →
      ∃ ex, (worker hh inp w).manifest = some (manifestText inp.name inp.slug
        (execLine inp.runtime ex) (runtimeStr inp.runtime))) :=
  c1_manifest_roundtrip (str "My Game") (str "my-game") (str "Game.exe") .windows
    (by decide) (by decide) (by decide)

end Kazeta


